import Mathlib

/-!
Shallow embedding of `asahi-nvram/src/main.rs`.

Strings are modelled as lists of byte values (`List Nat`, each < 256 for
genuine byte data); the tool's error enum, the percent-escape decoder
`read_var`, the per-byte encoder used by `print_var`, token splitting via
`split_once`, partition routing via `part_by_name`, and the read / write /
delete branches of `real_main` are embedded below.  External calls to the
`apple_nvram` container library (prepare_for_write, serialize,
erase_if_needed) and the device I/O calls (rewind, write_all) are modelled
as events recorded in an execution trace, in the order the code performs
them.
-/

namespace AsahiNvram

/-- The `Error` enum of main.rs (lines 12-21). -/
inductive Err where
  | Parse
  | SectionTooBig
  | MissingPartitionName
  | MissingValue
  | VariableNotFound
  | UnknownPartition
  | InvalidHex
deriving DecidableEq, Repr

/-- The error type of the external `apple_nvram` library; per the
`From<apple_nvram::Error>` impl (lines 23-30) it has exactly the variants
`ParseError` and `SectionTooBig`. -/
inductive NvErr where
  | parseError
  | sectionTooBig
deriving DecidableEq, Repr

/-- The `From<apple_nvram::Error> for Error` conversion (lines 23-30). -/
def ofNvErr : NvErr → Err
  | .parseError => .Parse
  | .sectionTooBig => .SectionTooBig

/-- Result of running a fallible piece of the Rust code: normal return,
`Err(e)` propagated by `?`, or a process panic (out-of-bounds slice,
`unwrap` failure). -/
inductive Res (α : Type) where
  | ok (a : α)
  | err (e : Err)
  | panic
deriving DecidableEq, Repr

/-- Push one byte in front of the eventual result, propagating error and
panic (models `ret.push(..)` followed by the rest of the loop). -/
def mapCons (b : Nat) : Res (List Nat) → Res (List Nat)
  | .ok l => .ok (b :: l)
  | .err e => .err e
  | .panic => .panic

/-- Value of one hexadecimal digit character, case-insensitive, as accepted
by `char::to_digit(16)` inside `u8::from_str_radix`. -/
def hexDigitVal (c : Nat) : Option Nat :=
  if 48 ≤ c ∧ c ≤ 57 then some (c - 48)
  else if 97 ≤ c ∧ c ≤ 102 then some (c - 87)
  else if 65 ≤ c ∧ c ≤ 70 then some (c - 55)
  else none

/-- `u8::from_str_radix(s, 16)` on a two-byte string `[a, b]`.  Rust's
integer parser accepts an optional leading `+` sign, so `"+f"` parses to
15; a leading `-` is rejected for unsigned types.  A two-hex-digit value is
at most 0xff, so overflow cannot occur. -/
def parseHex2 (a b : Nat) : Option Nat :=
  if a = 43 then hexDigitVal b
  else
    match hexDigitVal a, hexDigitVal b with
    | some x, some y => some (16 * x + y)
    | _, _ => none

/-- `read_var` (main.rs lines 132-152): percent-escape decoder.  On `%` it
takes the slice `val[i+1..i+3]`; when fewer than two bytes remain that
slice indexing panics. -/
def read_var : List Nat → Res (List Nat)
  | [] => .ok []
  | c :: rest =>
    if c = 37 then
      match rest with
      | h1 :: h2 :: rest2 =>
        match parseHex2 h1 h2 with
        | some b => mapCons b (read_var rest2)
        | none => .err .InvalidHex
      | _ => .panic
    else
      mapCons c (read_var rest)

/-- Low hex digit character (lowercase), as produced by `format!("{c:02x}")`. -/
def toHexLower (d : Nat) : Nat :=
  if d < 10 then 48 + d else 87 + d

/-- The per-byte encoding loop of `print_var` (main.rs lines 156-162),
applied to the byte stream after the container-level `UnescapeVal` pass: a
byte `c` with `(c as char).is_ascii() && !(c as char).is_ascii_control()`
(i.e. `32 ≤ c ≤ 126`) is emitted literally, any other byte as `%` followed
by its two lowercase hex digits. -/
def encodeVal : List Nat → List Nat
  | [] => []
  | c :: rest =>
    if 32 ≤ c ∧ c ≤ 126 then c :: encodeVal rest
    else 37 :: toHexLower (c / 16) :: toHexLower (c % 16) :: encodeVal rest

/-- `str::split_once(d)`: split at the first occurrence of byte `d`,
returning the parts before and after it, or `none` when `d` is absent. -/
def splitOnce (d : Nat) : List Nat → Option (List Nat × List Nat)
  | [] => none
  | x :: xs =>
    if x = d then some ([], xs)
    else
      match splitOnce d xs with
      | some (p, q) => some (x :: p, q)
      | none => none

/-- Modelled from the spec: a variable collection (`Section.values` of the
external `apple_nvram` library) as an association list from key bytes to
value bytes. -/
structure Sec where
  values : List (List Nat × List Nat)
deriving DecidableEq, Repr

/-- Modelled from the spec: the active partition of the NVRAM image with
its two collections `common` and `system` (the part of `Nvram` that
`active_part_mut` exposes). -/
structure Partn where
  common : Sec
  system : Sec
deriving DecidableEq, Repr

/-- Which of the two collections a partition name resolves to. -/
inductive PartSel where
  | common
  | system
deriving DecidableEq, Repr

def commonName : List Nat := [99, 111, 109, 109, 111, 110]

def systemName : List Nat := [115, 121, 115, 116, 101, 109]

/-- `part_by_name` (main.rs lines 124-130): `"common"` and `"system"`
resolve, everything else is `UnknownPartition`. -/
def part_by_name (s : List Nat) : Res PartSel :=
  if s = commonName then .ok .common
  else if s = systemName then .ok .system
  else .err .UnknownPartition

def getSec : PartSel → Partn → Sec
  | .common, p => p.common
  | .system, p => p.system

def setSec : PartSel → Sec → Partn → Partn
  | .common, s, p => { p with common := s }
  | .system, s, p => { p with system := s }

/-- Modelled from the spec: map insert — "insert it into the resolved
collection, replacing any existing variable with the same name". -/
def insertKV (k v : List Nat) : List (List Nat × List Nat) → List (List Nat × List Nat)
  | [] => [(k, v)]
  | (k2, v2) :: rest =>
    if k2 = k then (k, v) :: rest else (k2, v2) :: insertKV k v rest

/-- Modelled from the spec: map remove — "removes the named variable from
the resolved collection if present (silently no-op if absent)". -/
def removeKV (k : List Nat) : List (List Nat × List Nat) → List (List Nat × List Nat)
  | [] => []
  | (k2, v2) :: rest =>
    if k2 = k then rest else (k2, v2) :: removeKV k rest

/-- Association-list lookup (`values.get(name)`). -/
def lookupKV (k : List Nat) : List (List Nat × List Nat) → Option (List Nat)
  | [] => none
  | (k2, v2) :: rest => if k2 = k then some v2 else lookupKV k rest

/-- Externally visible effects of `real_main`, in execution order:
`prepare_for_write`, `file.rewind()`, `nv.serialize()`,
`erase_if_needed(&file, len)`, `file.write_all(&data)`, and one printed
line per variable for the read branch. -/
inductive Ev where
  | prepareForWrite
  | rewind
  | serializeEv
  | eraseIfNeeded (len : Nat)
  | writeAll (data : List Nat)
  | printEv (sec : PartSel) (key : List Nat) (value : List Nat)
deriving DecidableEq, Repr

/-- One iteration of the write loop (main.rs lines 91-101): split on `=`
(`MissingValue` if absent), split the key on `:` (`MissingPartitionName`
if absent), resolve the partition, decode the value with `read_var`, then
insert.  Evaluation order matches the Rust statement: `part_by_name` is
checked before `read_var` runs and before any insertion. -/
def stepW (tok : List Nat) (p : Partn) : Res Partn :=
  match splitOnce 61 tok with
  | none => .err .MissingValue
  | some (key, vt) =>
    match splitOnce 58 key with
    | none => .err .MissingPartitionName
    | some (pt, nm) =>
      match part_by_name pt with
      | .err e => .err e
      | .panic => .panic
      | .ok sel =>
        match read_var vt with
        | .err e => .err e
        | .panic => .panic
        | .ok bytes => .ok (setSec sel ⟨insertKV nm bytes (getSec sel p).values⟩ p)

/-- One iteration of the delete loop (main.rs lines 110-113). -/
def stepD (tok : List Nat) (p : Partn) : Res Partn :=
  match splitOnce 58 tok with
  | none => .err .MissingPartitionName
  | some (pt, nm) =>
    match part_by_name pt with
    | .err e => .err e
    | .panic => .panic
    | .ok sel => .ok (setSec sel ⟨removeKV nm (getSec sel p).values⟩ p)

/-- The write branch's reference loop, threading the in-memory image. -/
def processW : List (List Nat) → Partn → Res Partn
  | [], p => .ok p
  | t :: ts, p =>
    match stepW t p with
    | .ok p2 => processW ts p2
    | .err e => .err e
    | .panic => .panic

/-- The delete branch's reference loop. -/
def processD : List (List Nat) → Partn → Res Partn
  | [], p => .ok p
  | t :: ts, p =>
    match stepD t p with
    | .ok p2 => processD ts p2
    | .err e => .err e
    | .panic => .panic

/-- The write branch of `real_main` (lines 88-106), parameterised by the
external `serialize` operation.  `prepare_for_write` is modelled from the
spec as an external precondition step with no effect on the collections.
After a successful loop the code runs `file.rewind()`, then
`nv.serialize()?`, then `erase_if_needed`, then `file.write_all`. -/
def runWrite (ser : Partn → Except NvErr (List Nat)) (toks : List (List Nat))
    (p : Partn) : List Ev × Res Unit :=
  match processW toks p with
  | .err e => ([.prepareForWrite], .err e)
  | .panic => ([.prepareForWrite], .panic)
  | .ok p2 =>
    match ser p2 with
    | .error e => ([.prepareForWrite, .rewind, .serializeEv], .err (ofNvErr e))
    | .ok data =>
      ([.prepareForWrite, .rewind, .serializeEv, .eraseIfNeeded data.length,
        .writeAll data], .ok ())

/-- The delete branch of `real_main` (lines 107-118). -/
def runDelete (ser : Partn → Except NvErr (List Nat)) (toks : List (List Nat))
    (p : Partn) : List Ev × Res Unit :=
  match processD toks p with
  | .err e => ([.prepareForWrite], .err e)
  | .panic => ([.prepareForWrite], .panic)
  | .ok p2 =>
    match ser p2 with
    | .error e => ([.prepareForWrite, .rewind, .serializeEv], .err (ofNvErr e))
    | .ok data =>
      ([.prepareForWrite, .rewind, .serializeEv, .eraseIfNeeded data.length,
        .writeAll data], .ok ())

/-- The explicit-reference loop of the read branch (lines 70-77). -/
def readLoop : List (List Nat) → Partn → List Ev × Res Unit
  | [], _ => ([], .ok ())
  | t :: ts, p =>
    match splitOnce 58 t with
    | none => ([], .err .MissingPartitionName)
    | some (pt, nm) =>
      match part_by_name pt with
      | .err e => ([], .err e)
      | .panic => ([], .panic)
      | .ok sel =>
        match lookupKV nm (getSec sel p).values with
        | none => ([], .err .VariableNotFound)
        | some v =>
          let r := readLoop ts p
          (.printEv sel nm v :: r.1, r.2)

/-- The read branch of `real_main` (lines 67-87): with explicit references
it resolves and prints each; with none it prints every variable of
`common` then of `system`.  It performs no device operation. -/
def runRead (args : Option (List (List Nat))) (p : Partn) : List Ev × Res Unit :=
  match args with
  | some toks => readLoop toks p
  | none =>
    ((p.common.values.map fun kv => Ev.printEv .common kv.1 kv.2) ++
      (p.system.values.map fun kv => Ev.printEv .system kv.1 kv.2), .ok ())

/-- Every `%` occurrence in `v` is followed by two bytes accepted by the
hex parser. -/
def goodEscapes (v : List Nat) : Prop :=
  ∀ p s, v = p ++ 37 :: s → ∃ a b t, s = a :: b :: t ∧ (parseHex2 a b).isSome

/-- A concrete empty image used by witnesses. -/
def part0 : Partn := ⟨⟨[]⟩, ⟨[]⟩⟩

/-- A concrete serialize stand-in that always succeeds with an empty image,
used by witnesses (the theorems themselves quantify over `ser`). -/
def serNil : Partn → Except NvErr (List Nat) := fun _ => .ok []

/-- A `%` somewhere in `v` is followed by two bytes the hex parser rejects. -/
def hasBadEscape (v : List Nat) : Prop :=
  ∃ p a b s, v = p ++ 37 :: a :: b :: s ∧ parseHex2 a b = none

/-- The scan reaches a `%` with fewer than two bytes after it: `v` splits as
a cleanly decodable prefix, then `%`, then at most one byte. -/
def panicShape (v : List Nat) : Prop :=
  ∃ p s bs, v = p ++ 37 :: s ∧ s.length ≤ 1 ∧ read_var p = .ok bs

theorem mapCons_eq_ok (b : Nat) (r : Res (List Nat)) (bs : List Nat) :
    mapCons b r = .ok bs ↔ ∃ l, r = .ok l ∧ bs = b :: l := by
  cases r <;> simp [mapCons, eq_comm]

theorem mapCons_ok_iff (b : Nat) (r : Res (List Nat)) :
    (∃ bs, mapCons b r = .ok bs) ↔ ∃ l, r = .ok l := by
  cases r <;> simp [mapCons]

theorem mapCons_err_iff (b : Nat) (r : Res (List Nat)) (e : Err) :
    mapCons b r = .err e ↔ r = .err e := by
  cases r <;> simp [mapCons]

theorem mapCons_panic_iff (b : Nat) (r : Res (List Nat)) :
    mapCons b r = .panic ↔ r = .panic := by
  cases r <;> simp [mapCons]

theorem hexDigitVal_37 : hexDigitVal 37 = none := by decide

theorem parseHex2_ne_37 (a b x : Nat) (h : parseHex2 a b = some x) :
    a ≠ 37 ∧ b ≠ 37 := by
  constructor
  · intro hEq
    subst hEq
    rw [parseHex2, if_neg (by omega)] at h
    rw [hexDigitVal_37] at h
    cases hexDigitVal b <;> simp at h
  · intro hEq
    subst hEq
    rw [parseHex2] at h
    rw [hexDigitVal_37] at h
    by_cases ha : a = 43
    · rw [if_pos ha] at h; simp at h
    · rw [if_neg ha] at h
      cases hexDigitVal a <;> simp at h



theorem goodEscapes_nil : goodEscapes [] := by
  intro p s h
  exact absurd h (by simp)

theorem goodEscapes_cons_ne (c : Nat) (v : List Nat) (hc : ¬c = 37) :
    goodEscapes (c :: v) ↔ goodEscapes v := by
  constructor
  · intro hg p s h
    exact hg (c :: p) s (by simp [h])
  · intro hg p s h
    cases p with
    | nil =>
      simp at h
      exact absurd h.1 hc
    | cons x p2 =>
      simp at h
      exact hg p2 s h.2

theorem goodEscapes_esc (a b : Nat) (v : List Nat) :
    goodEscapes (37 :: a :: b :: v) ↔ ((parseHex2 a b).isSome ∧ goodEscapes v) := by
  constructor
  · intro hg
    constructor
    · obtain ⟨a2, b2, t, hs, hsome⟩ := hg [] (a :: b :: v) rfl
      simp at hs
      rw [hs.1, hs.2.1]
      exact hsome
    · intro p s h
      exact hg (37 :: a :: b :: p) s (by simp [h])
  · rintro ⟨hsome, hg⟩ p s h
    obtain ⟨x, hx⟩ := Option.isSome_iff_exists.mp hsome
    obtain ⟨hne1, hne2⟩ := parseHex2_ne_37 a b x hx
    cases p with
    | nil =>
      simp at h
      exact ⟨a, b, v, by simp [h], hsome⟩
    | cons y p2 =>
      simp at h
      obtain ⟨-, h2⟩ := h
      cases p2 with
      | nil =>
        simp at h2
        exact absurd h2.1 hne1
      | cons z p3 =>
        simp at h2
        obtain ⟨-, h3⟩ := h2
        cases p3 with
        | nil =>
          simp at h3
          exact absurd h3.1 hne2
        | cons w p4 =>
          simp at h3
          exact hg p4 s h3.2



theorem hasBadEscape_cons_ne (c : Nat) (v : List Nat) (hc : ¬c = 37) :
    hasBadEscape (c :: v) ↔ hasBadEscape v := by
  constructor
  · rintro ⟨p, a, b, s, h, hbad⟩
    cases p with
    | nil =>
      simp at h
      exact absurd h.1 hc
    | cons x p2 =>
      simp at h
      exact ⟨p2, a, b, s, h.2, hbad⟩
  · rintro ⟨p, a, b, s, h, hbad⟩
    exact ⟨c :: p, a, b, s, by simp [h], hbad⟩

theorem hasBadEscape_esc_some (a b x : Nat) (v : List Nat)
    (hx : parseHex2 a b = some x) :
    hasBadEscape (37 :: a :: b :: v) ↔ hasBadEscape v := by
  obtain ⟨hne1, hne2⟩ := parseHex2_ne_37 a b x hx
  constructor
  · rintro ⟨p, a2, b2, s, h, hbad⟩
    cases p with
    | nil =>
      simp at h
      rw [← h.1, ← h.2.1, hx] at hbad
      simp at hbad
    | cons y p2 =>
      simp at h
      obtain ⟨-, h2⟩ := h
      cases p2 with
      | nil =>
        simp at h2
        exact absurd h2.1 hne1
      | cons z p3 =>
        simp at h2
        obtain ⟨-, h3⟩ := h2
        cases p3 with
        | nil =>
          simp at h3
          exact absurd h3.1 hne2
        | cons w p4 =>
          simp at h3
          exact ⟨p4, a2, b2, s, h3.2, hbad⟩
  · rintro ⟨p, a2, b2, s, h, hbad⟩
    exact ⟨37 :: a :: b :: p, a2, b2, s, by simp [h], hbad⟩

theorem hasBadEscape_esc_none (a b : Nat) (v : List Nat)
    (hx : parseHex2 a b = none) : hasBadEscape (37 :: a :: b :: v) :=
  ⟨[], a, b, v, rfl, hx⟩

theorem hasBadEscape_short (rest : List Nat) (hlen : rest.length ≤ 1) :
    ¬hasBadEscape (37 :: rest) := by
  rintro ⟨p, a, b, s, h, -⟩
  have := congrArg List.length h
  simp at this
  omega



theorem read_var_cons_ne (c : Nat) (v : List Nat) (hc : ¬c = 37) :
    read_var (c :: v) = mapCons c (read_var v) := by
  conv_lhs => rw [read_var.eq_def]
  simp only [hc, if_false]

theorem read_var_esc (a b : Nat) (v : List Nat) :
    read_var (37 :: a :: b :: v) =
      match parseHex2 a b with
      | some x => mapCons x (read_var v)
      | none => .err .InvalidHex := rfl

theorem read_var_trunc1 (x : Nat) : read_var [37, x] = .panic := rfl

theorem read_var_trunc0 : read_var [37] = .panic := rfl

theorem panicShape_cons_ne (c : Nat) (v : List Nat) (hc : ¬c = 37) :
    panicShape (c :: v) ↔ panicShape v := by
  constructor
  · rintro ⟨p, s, bs, h, hlen, hok⟩
    cases p with
    | nil =>
      simp at h
      exact absurd h.1 hc
    | cons x p2 =>
      rw [List.cons_append] at h
      injection h with hx h1
      subst hx
      rw [read_var_cons_ne _ _ hc] at hok
      rw [mapCons_eq_ok] at hok
      obtain ⟨l, hl, -⟩ := hok
      exact ⟨p2, s, l, h1, hlen, hl⟩
  · rintro ⟨p, s, bs, h, hlen, hok⟩
    refine ⟨c :: p, s, c :: bs, by simp [h], hlen, ?_⟩
    rw [read_var_cons_ne _ _ hc, hok]
    rfl

theorem panicShape_esc_some (a b x : Nat) (v : List Nat)
    (hx : parseHex2 a b = some x) :
    panicShape (37 :: a :: b :: v) ↔ panicShape v := by
  obtain ⟨hne1, hne2⟩ := parseHex2_ne_37 a b x hx
  constructor
  · rintro ⟨p, s, bs, h, hlen, hok⟩
    cases p with
    | nil =>
      rw [List.nil_append] at h
      injection h with h0 h1
      rw [← h1] at hlen
      simp only [List.length_cons] at hlen
      omega
    | cons y p2 =>
      rw [List.cons_append] at h
      injection h with hy h1
      subst hy
      cases p2 with
      | nil =>
        rw [List.nil_append] at h1
        injection h1 with ha h2
        exact absurd ha hne1
      | cons z p3 =>
        rw [List.cons_append] at h1
        injection h1 with ha h2
        subst ha
        cases p3 with
        | nil =>
          rw [List.nil_append] at h2
          injection h2 with hb h3
          exact absurd hb hne2
        | cons w p4 =>
          rw [List.cons_append] at h2
          injection h2 with hb h3
          subst hb
          rw [read_var_esc, hx] at hok
          rw [mapCons_eq_ok] at hok
          obtain ⟨l, hl, -⟩ := hok
          exact ⟨p4, s, l, h3, hlen, hl⟩
  · rintro ⟨p, s, bs, h, hlen, hok⟩
    refine ⟨37 :: a :: b :: p, s, x :: bs, by simp [h], hlen, ?_⟩
    rw [read_var_esc, hx, hok]
    rfl

theorem panicShape_esc_none (a b : Nat) (v : List Nat)
    (hx : parseHex2 a b = none) : ¬panicShape (37 :: a :: b :: v) := by
  rintro ⟨p, s, bs, h, hlen, hok⟩
  cases p with
  | nil =>
    rw [List.nil_append] at h
    injection h with h0 h1
    rw [← h1] at hlen
    simp only [List.length_cons] at hlen
    omega
  | cons y p2 =>
    rw [List.cons_append] at h
    injection h with hy h1
    subst hy
    cases p2 with
    | nil =>
      rw [read_var_trunc0] at hok
      exact Res.noConfusion hok
    | cons z p3 =>
      rw [List.cons_append] at h1
      injection h1 with ha h2
      subst ha
      cases p3 with
      | nil =>
        rw [read_var_trunc1] at hok
        exact Res.noConfusion hok
      | cons w p4 =>
        rw [List.cons_append] at h2
        injection h2 with hb h3
        subst hb
        rw [read_var_esc, hx] at hok
        exact Res.noConfusion hok

theorem panicShape_short (rest : List Nat) (hlen : rest.length ≤ 1) :
    panicShape (37 :: rest) :=
  ⟨[], rest, [], rfl, hlen, rfl⟩



theorem read_var_ok_iff (v : List Nat) :
    (∃ bs, read_var v = .ok bs) ↔ goodEscapes v := by
  induction v using read_var.induct with
  | case1 =>
    rw [read_var]
    exact Iff.intro (fun _ => goodEscapes_nil) (fun _ => ⟨[], rfl⟩)
  | case2 h1 h2 rest2 b hx ih =>
    rw [read_var_esc, hx, mapCons_ok_iff, goodEscapes_esc, ih]
    simp [hx]
  | case3 h1 h2 rest2 hx =>
    rw [read_var_esc, hx, goodEscapes_esc]
    constructor
    · rintro ⟨bs, h⟩
      exact Res.noConfusion h
    · rintro ⟨hsome, -⟩
      rw [hx] at hsome
      exact Bool.noConfusion hsome
  | case4 rest hno =>
    have hp : read_var (37 :: rest) = .panic := by
      cases rest with
      | nil => rfl
      | cons x rest3 =>
        cases rest3 with
        | nil => rfl
        | cons y rest4 => exact (hno x y rest4 rfl).elim
    rw [hp]
    constructor
    · rintro ⟨bs, h⟩
      exact Res.noConfusion h
    · intro hg
      obtain ⟨a, b, t, hs, -⟩ := hg [] rest rfl
      exact (hno a b t hs).elim
  | case5 c rest hc ih =>
    rw [read_var_cons_ne c rest hc, mapCons_ok_iff, goodEscapes_cons_ne c rest hc]
    exact ih

theorem read_var_invalidHex_iff (v : List Nat) :
    read_var v = .err .InvalidHex ↔ hasBadEscape v := by
  induction v using read_var.induct with
  | case1 =>
    rw [read_var]
    constructor
    · intro h
      exact Res.noConfusion h
    · rintro ⟨p, a, b, s, h, -⟩
      exact absurd h (by simp)
  | case2 h1 h2 rest2 b hx ih =>
    rw [read_var_esc, hx, mapCons_err_iff, hasBadEscape_esc_some h1 h2 b rest2 hx]
    exact ih
  | case3 h1 h2 rest2 hx =>
    rw [read_var_esc, hx]
    exact Iff.intro (fun _ => hasBadEscape_esc_none h1 h2 rest2 hx) (fun _ => rfl)
  | case4 rest hno =>
    have hlen : rest.length ≤ 1 := by
      cases rest with
      | nil => simp
      | cons x rest3 =>
        cases rest3 with
        | nil => simp
        | cons y rest4 => exact (hno x y rest4 rfl).elim
    have hp : read_var (37 :: rest) = .panic := by
      cases rest with
      | nil => rfl
      | cons x rest3 =>
        cases rest3 with
        | nil => rfl
        | cons y rest4 => exact (hno x y rest4 rfl).elim
    rw [hp]
    constructor
    · intro h
      exact Res.noConfusion h
    · intro h
      exact absurd h (hasBadEscape_short rest hlen)
  | case5 c rest hc ih =>
    rw [read_var_cons_ne c rest hc, mapCons_err_iff, hasBadEscape_cons_ne c rest hc]
    exact ih



theorem hexDigitVal_toHexLower (d : Nat) (hd : d < 16) :
    hexDigitVal (toHexLower d) = some d := by
  by_cases h : d < 10
  · rw [toHexLower, if_pos h, hexDigitVal, if_pos (by omega)]
    exact congrArg some (by omega)
  · rw [toHexLower, if_neg h, hexDigitVal, if_neg (by omega), if_pos (by omega)]
    exact congrArg some (by omega)

theorem toHexLower_ne_43 (d : Nat) : toHexLower d ≠ 43 := by
  rw [toHexLower]
  split <;> omega

theorem parseHex2_toHex (c : Nat) (hc : c < 256) :
    parseHex2 (toHexLower (c / 16)) (toHexLower (c % 16)) = some c := by
  rw [parseHex2, if_neg (toHexLower_ne_43 (c / 16))]
  rw [hexDigitVal_toHexLower (c / 16) (by omega), hexDigitVal_toHexLower (c % 16) (by omega)]
  exact congrArg some (by omega)

theorem readLoop_mem (ts : List (List Nat)) (p : Partn) (ev : Ev)
    (h : ev ∈ (readLoop ts p).1) : ∃ sel k val, ev = .printEv sel k val := by
  induction ts with
  | nil => exact absurd h (by simp [readLoop])
  | cons t ts2 ih =>
    rw [readLoop] at h
    rcases hsp : splitOnce 58 t with - | ⟨pt, nm⟩ <;> simp only [hsp] at h
    · exact absurd h (by simp)
    · rcases hpn : part_by_name pt with sel | e | - <;> simp only [hpn] at h
      · rcases hlk : lookupKV nm (getSec sel p).values with - | v <;> simp only [hlk] at h
        · exact absurd h (by simp)
        · rcases List.mem_cons.mp h with rfl | hm
          · exact ⟨sel, nm, v, rfl⟩
          · exact ih hm
      · exact absurd h (by simp)
      · exact absurd h (by simp)

theorem processW_append (ts : List (List Nat)) (t : List Nat) (p p2 : Partn)
    (h : processW (ts ++ [t]) p = .ok p2) :
    ∃ pm, processW ts p = .ok pm ∧ stepW t pm = .ok p2 := by
  induction ts generalizing p with
  | nil =>
    rw [List.nil_append, processW.eq_def] at h
    rcases hs : stepW t p with q | e | - <;> simp only [hs] at h
    · rw [processW] at h
      injection h with h2
      exact ⟨p, rfl, by rw [hs, h2]⟩
    · exact Res.noConfusion h
    · exact Res.noConfusion h
  | cons s2 ts2 ih =>
    rw [List.cons_append, processW.eq_def] at h
    rcases hs : stepW s2 p with q | e | - <;> simp only [hs] at h
    · obtain ⟨pm, hm, hst⟩ := ih q h
      refine ⟨pm, ?_, hst⟩
      rw [processW.eq_def]
      simp only [hs]
      exact hm
    · exact Res.noConfusion h
    · exact Res.noConfusion h

theorem getSec_setSec (sel : PartSel) (s : Sec) (p : Partn) :
    getSec sel (setSec sel s p) = s := by
  cases sel <;> rfl

theorem lookup_insertKV (k v : List Nat) (l : List (List Nat × List Nat)) :
    lookupKV k (insertKV k v l) = some v := by
  induction l with
  | nil => simp [insertKV, lookupKV]
  | cons kv rest ih =>
    obtain ⟨k2, v2⟩ := kv
    by_cases hk : k2 = k
    · rw [insertKV, if_pos hk, lookupKV, if_pos rfl]
    · rw [insertKV, if_neg hk, lookupKV, if_neg hk]
      exact ih



theorem splitOnce_eq_some_iff (d : Nat) (s p q : List Nat) :
    splitOnce d s = some (p, q) ↔ (s = p ++ d :: q ∧ d ∉ p) := by
  induction s generalizing p q with
  | nil =>
    constructor
    · intro h
      exact Option.noConfusion h
    · rintro ⟨h, -⟩
      exact absurd h (by simp)
  | cons x xs ih =>
    by_cases hx : x = d
    · subst hx
      rw [splitOnce, if_pos rfl]
      constructor
      · intro h
        have h2 := Option.some.inj h
        rw [Prod.mk.injEq] at h2
        rw [← h2.1, ← h2.2]
        exact ⟨rfl, by simp⟩
      · rintro ⟨heq, hnp⟩
        cases p with
        | nil =>
          rw [List.nil_append] at heq
          injection heq with heq1 h2
          rw [h2]
        | cons y p2 =>
          rw [List.cons_append] at heq
          injection heq with hy hrest
          exact absurd (by rw [hy]; exact List.mem_cons_self y p2) hnp
    · rw [splitOnce]
      rw [if_neg hx]
      rcases hs : splitOnce d xs with - | ⟨p3, q3⟩ <;> simp only [hs]
      · constructor
        · intro h
          exact Option.noConfusion h
        · rintro ⟨heq, hnp⟩
          cases p with
          | nil =>
            rw [List.nil_append] at heq
            injection heq with hy hrest
            exact absurd hy hx
          | cons y p2 =>
            rw [List.cons_append] at heq
            injection heq with hy h2
            have : splitOnce d xs = some (p2, q) :=
              (ih p2 q).mpr ⟨h2, fun hm => hnp (List.mem_cons_of_mem y hm)⟩
            rw [hs] at this
            exact Option.noConfusion this
      · obtain ⟨hxs, hnp3⟩ := (ih p3 q3).mp hs
        constructor
        · intro h
          have h2 := Option.some.inj h
          rw [Prod.mk.injEq] at h2
          rw [← h2.1, ← h2.2]
          refine ⟨by rw [hxs]; rfl, ?_⟩
          intro hm
          rcases List.mem_cons.mp hm with hm1 | hm2
          · exact hx hm1.symm
          · exact hnp3 hm2
        · rintro ⟨heq, hnp⟩
          cases p with
          | nil =>
            rw [List.nil_append] at heq
            injection heq with hy hrest
            exact absurd hy hx
          | cons y p2 =>
            rw [List.cons_append] at heq
            injection heq with hy h2
            have : splitOnce d xs = some (p2, q) :=
              (ih p2 q).mpr ⟨h2, fun hm => hnp (List.mem_cons_of_mem y hm)⟩
            rw [hs] at this
            have h3 := Option.some.inj this
            rw [Prod.mk.injEq] at h3
            rw [hy, h3.1, h3.2]


theorem splitOnce_eq_none_iff (d : Nat) (s : List Nat) :
    splitOnce d s = none ↔ d ∉ s := by
  induction s with
  | nil => simp [splitOnce]
  | cons x xs ih =>
    by_cases hx : x = d
    · subst hx
      rw [splitOnce, if_pos rfl]
      constructor
      · intro h
        exact Option.noConfusion h
      · intro h
        exact (h (List.mem_cons_self x xs)).elim
    · rw [splitOnce, if_neg hx]
      rcases hs : splitOnce d xs with - | ⟨p, q⟩ <;> simp only [hs]
      · constructor
        · intro hm2
          intro hm
          rcases List.mem_cons.mp hm with hm1 | hm3
          · exact hx hm1.symm
          · exact ih.mp hs hm3
        · intro h2
          trivial
      · constructor
        · intro h
          exact Option.noConfusion h
        · intro h
          obtain ⟨hxs, -⟩ := (splitOnce_eq_some_iff d xs p q).mp hs
          exact (h (by rw [hxs]; exact List.mem_cons_of_mem x (by simp))).elim

theorem part_by_name_err (pt : List Nat) (e : Err)
    (h : part_by_name pt = .err e) : e = .UnknownPartition := by
  rw [part_by_name] at h
  split_ifs at h
  injection h with h2
  exact h2.symm

theorem part_by_name_no_panic (pt : List Nat)
    (h : part_by_name pt = .panic) : False := by
  rw [part_by_name] at h
  split_ifs at h

theorem read_var_err (v : List Nat) (e : Err) (h : read_var v = .err e) :
    e = .InvalidHex := by
  induction v using read_var.induct with
  | case1 =>
    rw [read_var] at h
    exact Res.noConfusion h
  | case2 h1 h2 rest2 b hx ih =>
    rw [read_var_esc, hx, mapCons_err_iff] at h
    exact ih h
  | case3 h1 h2 rest2 hx =>
    rw [read_var_esc, hx] at h
    injection h with h2
    exact h2.symm
  | case4 rest hno =>
    have hp : read_var (37 :: rest) = .panic := by
      cases rest with
      | nil => rfl
      | cons x rest3 =>
        cases rest3 with
        | nil => rfl
        | cons y rest4 => exact (hno x y rest4 rfl).elim
    rw [hp] at h
    exact Res.noConfusion h
  | case5 c rest hc ih =>
    rw [read_var_cons_ne c rest hc, mapCons_err_iff] at h
    exact ih h



theorem part_by_name_other (s : List Nat) (h1 : s ≠ commonName)
    (h2 : s ≠ systemName) : part_by_name s = .err .UnknownPartition := by
  rw [part_by_name, if_neg h1, if_neg h2]

theorem stepW_MissingValue_iff (tok : List Nat) (p : Partn) :
    stepW tok p = .err .MissingValue ↔ 61 ∉ tok := by
  constructor
  · intro h
    rcases hs : splitOnce 61 tok with - | ⟨key, vt⟩
    · exact (splitOnce_eq_none_iff 61 tok).mp hs
    · exfalso
      rw [stepW] at h
      simp only [hs] at h
      rcases hs2 : splitOnce 58 key with - | ⟨pt, nm⟩ <;> simp only [hs2] at h
      · injection h with h2
        exact Err.noConfusion h2
      · rcases hpn : part_by_name pt with sel | e | - <;> simp only [hpn] at h
        · rcases hrv : read_var vt with bts | e2 | - <;> simp only [hrv] at h
          · exact Res.noConfusion h
          · injection h with h2
            rw [read_var_err vt e2 hrv] at h2
            exact Err.noConfusion h2
          · exact Res.noConfusion h
        · injection h with h2
          rw [part_by_name_err pt e hpn] at h2
          exact Err.noConfusion h2
        · exact part_by_name_no_panic pt hpn
  · intro h
    rw [stepW]
    simp only [(splitOnce_eq_none_iff 61 tok).mpr h]

theorem stepW_MPN_iff (tok key vt : List Nat) (p : Partn)
    (hs : splitOnce 61 tok = some (key, vt)) :
    stepW tok p = .err .MissingPartitionName ↔ 58 ∉ key := by
  constructor
  · intro h
    rcases hs2 : splitOnce 58 key with - | ⟨pt, nm⟩
    · exact (splitOnce_eq_none_iff 58 key).mp hs2
    · exfalso
      rw [stepW] at h
      simp only [hs, hs2] at h
      rcases hpn : part_by_name pt with sel | e | - <;> simp only [hpn] at h
      · rcases hrv : read_var vt with bts | e2 | - <;> simp only [hrv] at h
        · exact Res.noConfusion h
        · injection h with h2
          rw [read_var_err vt e2 hrv] at h2
          exact Err.noConfusion h2
        · exact Res.noConfusion h
      · injection h with h2
        rw [part_by_name_err pt e hpn] at h2
        exact Err.noConfusion h2
      · exact part_by_name_no_panic pt hpn
  · intro h
    rw [stepW]
    simp only [hs, (splitOnce_eq_none_iff 58 key).mpr h]

theorem stepD_MPN_iff (tok : List Nat) (p : Partn) :
    stepD tok p = .err .MissingPartitionName ↔ 58 ∉ tok := by
  constructor
  · intro h
    rcases hs : splitOnce 58 tok with - | ⟨pt, nm⟩
    · exact (splitOnce_eq_none_iff 58 tok).mp hs
    · exfalso
      rw [stepD] at h
      simp only [hs] at h
      rcases hpn : part_by_name pt with sel | e | - <;> simp only [hpn] at h
      · exact Res.noConfusion h
      · injection h with h2
        rw [part_by_name_err pt e hpn] at h2
        exact Err.noConfusion h2
      · exact part_by_name_no_panic pt hpn
  · intro h
    rw [stepD]
    simp only [(splitOnce_eq_none_iff 58 tok).mpr h]

theorem readLoop_single_MPN_iff (tok : List Nat) (p : Partn) :
    (readLoop [tok] p).2 = .err .MissingPartitionName ↔ 58 ∉ tok := by
  constructor
  · intro h
    rcases hs : splitOnce 58 tok with - | ⟨pt, nm⟩
    · exact (splitOnce_eq_none_iff 58 tok).mp hs
    · exfalso
      rw [readLoop] at h
      simp only [hs] at h
      rcases hpn : part_by_name pt with sel | e | - <;> simp only [hpn] at h
      · rcases hlk : lookupKV nm (getSec sel p).values with - | v <;> simp only [hlk] at h
        · injection h with h2
          exact Err.noConfusion h2
        · rw [readLoop] at h
          exact Res.noConfusion h
      · injection h with h2
        rw [part_by_name_err pt e hpn] at h2
        exact Err.noConfusion h2
      · exact part_by_name_no_panic pt hpn
  · intro h
    rw [readLoop]
    simp only [(splitOnce_eq_none_iff 58 tok).mpr h]

theorem stepW_eq_insert (tok key vt pt nm : List Nat) (p : Partn) (sel : PartSel)
    (bts : List Nat) (h1 : splitOnce 61 tok = some (key, vt))
    (h2 : splitOnce 58 key = some (pt, nm)) (h3 : part_by_name pt = .ok sel)
    (h4 : read_var vt = .ok bts) :
    stepW tok p = .ok (setSec sel ⟨insertKV nm bts (getSec sel p).values⟩ p) := by
  rw [stepW]
  simp only [h1, h2, h3, h4]

theorem stepW_unknown (tok key vt pt nm : List Nat) (p : Partn)
    (h1 : splitOnce 61 tok = some (key, vt)) (h2 : splitOnce 58 key = some (pt, nm))
    (h3 : pt ≠ commonName) (h4 : pt ≠ systemName) :
    stepW tok p = .err .UnknownPartition := by
  rw [stepW]
  simp only [h1, h2, part_by_name_other pt h3 h4]

theorem stepD_unknown (tok pt nm : List Nat) (p : Partn)
    (h1 : splitOnce 58 tok = some (pt, nm))
    (h3 : pt ≠ commonName) (h4 : pt ≠ systemName) :
    stepD tok p = .err .UnknownPartition := by
  rw [stepD]
  simp only [h1, part_by_name_other pt h3 h4]



/-!
The claims.  Tokens used by witnesses, as byte lists:
`"common:x=y"`, `"common:x=1"`, `"common:x=2"`, `"bogus:x=1"`, `"bogus:x"`,
`"common:x"`, `"foo"`, `"x"`.
-/

/-- C1, counterexample: the round trip fails on byte sequences containing
`%` (0x25).  `print_var` emits the printable byte 0x25 literally, so
`encode([0x25, 0x34, 0x31])` is the text `%41`, which `read_var` decodes to
the single byte 0x41, not the original three bytes. -/
theorem c1_percent_breaks_round_trip :
    encodeVal [37, 52, 49] = [37, 52, 49] ∧
    read_var (encodeVal [37, 52, 49]) = .ok [65] ∧
    read_var (encodeVal [37, 52, 49]) ≠ .ok [37, 52, 49] := by
  decide

/-- C1, amended: for every byte sequence that contains no 0x25 (`%`) byte,
decoding the percent-escape encoding returns the original bytes:
`read_var (encodeVal b) = ok b`. -/
theorem c1_round_trip_of_no_percent (bts : List Nat) (hlt : ∀ c ∈ bts, c < 256)
    (hnp : 37 ∉ bts) : read_var (encodeVal bts) = .ok bts := by
  induction bts with
  | nil => rfl
  | cons c rest ih =>
    have hc : c < 256 := hlt c (List.mem_cons_self c rest)
    have h37 : ¬c = 37 := fun h => hnp (h ▸ List.mem_cons_self c rest)
    have hrest : read_var (encodeVal rest) = .ok rest :=
      ih (fun d hd => hlt d (List.mem_cons_of_mem c hd))
        (fun hd => hnp (List.mem_cons_of_mem c hd))
    by_cases hp : 32 ≤ c ∧ c ≤ 126
    · rw [encodeVal, if_pos hp, read_var_cons_ne c _ h37, hrest]
      rfl
    · rw [encodeVal, if_neg hp, read_var_esc, parseHex2_toHex c hc, hrest]
      rfl

/-- C1 witness: the amended round trip at the concrete `%`-free byte
sequence `[104, 0, 255, 61, 58]`. -/
theorem c1_round_trip_of_no_percent_witness :
    read_var (encodeVal [104, 0, 255, 61, 58]) = .ok [104, 0, 255, 61, 58] :=
  c1_round_trip_of_no_percent [104, 0, 255, 61, 58] (by decide) (by decide)

/-- C2: if the reference loop of the write or delete branch fails, the run
stops with that error and its trace is exactly `[prepareForWrite]` — no
serialize, no erase, no rewind, no write reaches the device, for any
serialize function. -/
theorem c2_ref_failure_aborts_before_commit (ser : Partn → Except NvErr (List Nat))
    (toks : List (List Nat)) (p : Partn) (e : Err) :
    (processW toks p = .err e → runWrite ser toks p = ([.prepareForWrite], .err e)) ∧
    (processD toks p = .err e → runDelete ser toks p = ([.prepareForWrite], .err e)) := by
  constructor
  · intro h
    rw [runWrite, h]
  · intro h
    rw [runDelete, h]

/-- C2 witness: write of the token `"x"` (no `=`) and delete of the token
`"x"` (no `:`) abort with only the prepare step in the trace. -/
theorem c2_ref_failure_aborts_before_commit_witness :
    runWrite serNil [[120]] part0 = ([.prepareForWrite], .err .MissingValue) ∧
    runDelete serNil [[120]] part0 = ([.prepareForWrite], .err .MissingPartitionName) :=
  ⟨(c2_ref_failure_aborts_before_commit serNil [[120]] part0 .MissingValue).1 (by decide),
   (c2_ref_failure_aborts_before_commit serNil [[120]] part0
      .MissingPartitionName).2 (by decide)⟩

/-- C3, counterexample: a `%` truncated at the end of the input does not
produce an InvalidHex error — `read_var "%"` panics (out-of-bounds slice);
moreover `"%+f"` decodes successfully to byte 15 even though `%` is not
followed by two hex digits, because the integer parser accepts a leading
`+` sign. -/
theorem c3_invalidhex_not_exact :
    read_var [37] = .panic ∧
    read_var [37] ≠ .err .InvalidHex ∧
    read_var [37, 43, 102] = .ok [15] := by
  decide

/-- C3, amended: `read_var` succeeds exactly when every `%` in the input is
followed by two bytes the hex parser accepts (two hex digits, or `+` and a
hex digit), and returns InvalidHex exactly when some `%` is followed by at
least two bytes that the hex parser rejects; a `%` with fewer than two
bytes after it leads to a panic instead (see the C10 theorem). -/
theorem c3_read_var_error_characterization (v : List Nat) :
    ((∃ bs, read_var v = .ok bs) ↔ goodEscapes v) ∧
    (read_var v = .err .InvalidHex ↔ hasBadEscape v) :=
  ⟨read_var_ok_iff v, read_var_invalidHex_iff v⟩

/-- C3 witness: the characterization applied at `"%zz"`, which has a bad
two-byte escape group, yields the InvalidHex error. -/
theorem c3_read_var_error_characterization_witness :
    read_var [37, 122, 122] = .err .InvalidHex :=
  (c3_read_var_error_characterization [37, 122, 122]).2.mpr
    ⟨[], 122, 122, [], rfl, by decide⟩

/-- C4, counterexample: on a successful write of `"common:x=y"` the trace
is prepare, rewind, serialize, erase, write — the rewind precedes the
serialize step, and nowhere in the trace does a serialize precede a
rewind, contradicting the claimed serialize-erase-rewind-write order. -/
theorem c4_rewind_precedes_serialize :
    runWrite serNil [[99, 111, 109, 109, 111, 110, 58, 120, 61, 121]] part0 =
      ([.prepareForWrite, .rewind, .serializeEv, .eraseIfNeeded 0, .writeAll []],
        .ok ()) ∧
    ¬∃ i j : Fin 5, i < j ∧
      [Ev.prepareForWrite, .rewind, .serializeEv, .eraseIfNeeded 0,
        .writeAll []].get i = .serializeEv ∧
      [Ev.prepareForWrite, .rewind, .serializeEv, .eraseIfNeeded 0,
        .writeAll []].get j = .rewind := by
  decide

/-- C4, amended: for a valid reference list the commit steps occur in this
order: reposition the write cursor to the start (`rewind`), then serialize
the whole image, then consult the erase-decision service, and only then
write the complete serialized image. -/
theorem c4_commit_event_order (ser : Partn → Except NvErr (List Nat))
    (toks : List (List Nat)) (p p2 : Partn) (data : List Nat)
    (hser : ser p2 = .ok data) :
    (processW toks p = .ok p2 → runWrite ser toks p =
      ([.prepareForWrite, .rewind, .serializeEv, .eraseIfNeeded data.length,
        .writeAll data], .ok ())) ∧
    (processD toks p = .ok p2 → runDelete ser toks p =
      ([.prepareForWrite, .rewind, .serializeEv, .eraseIfNeeded data.length,
        .writeAll data], .ok ())) := by
  constructor
  · intro h
    rw [runWrite, h]
    simp only [hser]
  · intro h
    rw [runDelete, h]
    simp only [hser]

/-- C4 witness: the commit order theorem at a concrete write of
`"common:x=y"` and a concrete delete of `"common:x"`. -/
theorem c4_commit_event_order_witness :
    runWrite serNil [[99, 111, 109, 109, 111, 110, 58, 120, 61, 121]] part0 =
      ([.prepareForWrite, .rewind, .serializeEv, .eraseIfNeeded 0, .writeAll []],
        .ok ()) ∧
    runDelete serNil [[99, 111, 109, 109, 111, 110, 58, 120]] part0 =
      ([.prepareForWrite, .rewind, .serializeEv, .eraseIfNeeded 0, .writeAll []],
        .ok ()) :=
  ⟨(c4_commit_event_order serNil [[99, 111, 109, 109, 111, 110, 58, 120, 61, 121]]
      part0 ⟨⟨[([120], [121])]⟩, ⟨[]⟩⟩ [] rfl).1 (by decide),
   (c4_commit_event_order serNil [[99, 111, 109, 109, 111, 110, 58, 120]]
      part0 part0 [] rfl).2 (by decide)⟩

/-- C5: the read branch never writes to the device — every event in its
trace is a print event, for explicit references as well as for the
dump-everything form, whether the run succeeds or fails. -/
theorem c5_read_never_writes_device (args : Option (List (List Nat))) (p : Partn)
    (ev : Ev) (h : ev ∈ (runRead args p).1) :
    ∃ sel k val, ev = .printEv sel k val := by
  cases args with
  | some toks => exact readLoop_mem toks p ev h
  | none =>
    rw [runRead] at h
    rcases List.mem_append.mp h with hm | hm <;>
      obtain ⟨kv, -, rfl⟩ := List.mem_map.mp hm <;> exact ⟨_, _, _, rfl⟩

/-- C5 witness: the only event a dump-everything read of a one-variable
image emits is a print event. -/
theorem c5_read_never_writes_device_witness :
    ∃ sel k val, (Ev.printEv .common [120] [121] : Ev) = .printEv sel k val :=
  c5_read_never_writes_device none ⟨⟨[([120], [121])]⟩, ⟨[]⟩⟩
    (Ev.printEv .common [120] [121]) (by decide)

/-- C6: write and delete with an empty reference list still run the full
commit: the trace is prepare, rewind, serialize, erase, write of the
serialized (unchanged) image. -/
theorem c6_empty_batch_still_commits (ser : Partn → Except NvErr (List Nat))
    (p : Partn) (data : List Nat) (hser : ser p = .ok data) :
    runWrite ser [] p =
      ([.prepareForWrite, .rewind, .serializeEv, .eraseIfNeeded data.length,
        .writeAll data], .ok ()) ∧
    runDelete ser [] p =
      ([.prepareForWrite, .rewind, .serializeEv, .eraseIfNeeded data.length,
        .writeAll data], .ok ()) := by
  constructor
  · rw [runWrite]
    simp only [processW, hser]
  · rw [runDelete]
    simp only [processD, hser]

/-- C6 witness: empty-list write and delete on a concrete empty image both
produce the full commit trace. -/
theorem c6_empty_batch_still_commits_witness :
    runWrite serNil [] part0 =
      ([.prepareForWrite, .rewind, .serializeEv, .eraseIfNeeded 0, .writeAll []],
        .ok ()) ∧
    runDelete serNil [] part0 =
      ([.prepareForWrite, .rewind, .serializeEv, .eraseIfNeeded 0, .writeAll []],
        .ok ()) :=
  c6_empty_batch_still_commits serNil part0 [] rfl

/-- C7: insertions are applied left to right and replace any existing
variable with the same name, so after a successful write batch the value
stored under the last token's name is that token's decoded value — later
duplicates win. -/
theorem c7_last_write_wins (ts : List (List Nat)) (tok key vt pt nm : List Nat)
    (p p2 : Partn) (sel : PartSel) (bts : List Nat)
    (h : processW (ts ++ [tok]) p = .ok p2)
    (h1 : splitOnce 61 tok = some (key, vt))
    (h2 : splitOnce 58 key = some (pt, nm))
    (h3 : part_by_name pt = .ok sel) (h4 : read_var vt = .ok bts) :
    lookupKV nm (getSec sel p2).values = some bts := by
  obtain ⟨pm, -, hst⟩ := processW_append ts tok p p2 h
  rw [stepW_eq_insert tok key vt pt nm pm sel bts h1 h2 h3 h4] at hst
  injection hst with h5
  rw [← h5, getSec_setSec]
  exact lookup_insertKV nm bts (getSec sel pm).values

/-- C7 witness: `write common:x=1 common:x=2` leaves `common:x` equal to
the bytes of `"2"`. -/
theorem c7_last_write_wins_witness :
    lookupKV [120] (getSec .common ⟨⟨[([120], [50])]⟩, ⟨[]⟩⟩).values = some [50] :=
  c7_last_write_wins [[99, 111, 109, 109, 111, 110, 58, 120, 61, 49]]
    [99, 111, 109, 109, 111, 110, 58, 120, 61, 50]
    [99, 111, 109, 109, 111, 110, 58, 120] [50]
    [99, 111, 109, 109, 111, 110] [120]
    part0 ⟨⟨[([120], [50])]⟩, ⟨[]⟩⟩ .common [50]
    (by decide) (by decide) (by decide) (by decide) (by decide)

/-- C8: token splitting uses the first delimiter occurrence only —
`splitOnce` returns `none` exactly when the delimiter is absent and
`some (p, q)` exactly when it splits at the first occurrence; read and
delete tokens fail with MissingPartitionName exactly when they contain no
`:`; write tokens fail with MissingValue exactly when they contain no `=`,
and, once split on `=`, with MissingPartitionName exactly when the key
part contains no `:`. -/
theorem c8_first_delimiter_split :
    (∀ d s, splitOnce d s = none ↔ d ∉ s) ∧
    (∀ d s p q, splitOnce d s = some (p, q) ↔ (s = p ++ d :: q ∧ d ∉ p)) ∧
    (∀ tok p2, (readLoop [tok] p2).2 = .err .MissingPartitionName ↔ 58 ∉ tok) ∧
    (∀ tok p2, stepD tok p2 = .err .MissingPartitionName ↔ 58 ∉ tok) ∧
    (∀ tok p2, stepW tok p2 = .err .MissingValue ↔ 61 ∉ tok) ∧
    (∀ tok key vt p2, splitOnce 61 tok = some (key, vt) →
      (stepW tok p2 = .err .MissingPartitionName ↔ 58 ∉ key)) :=
  ⟨splitOnce_eq_none_iff, splitOnce_eq_some_iff, readLoop_single_MPN_iff,
   stepD_MPN_iff, stepW_MissingValue_iff,
   fun tok key vt p2 hs => stepW_MPN_iff tok key vt p2 hs⟩

/-- C8 witness: `"c:x:y"` splits on the first `:` only; delete of `"foo"`
(no `:`) fails with MissingPartitionName; write of `"c:x"` (no `=`) fails
with MissingValue. -/
theorem c8_first_delimiter_split_witness :
    splitOnce 58 [99, 58, 120, 58, 121] = some ([99], [120, 58, 121]) ∧
    stepD [102, 111, 111] part0 = .err .MissingPartitionName ∧
    stepW [99, 58, 120] part0 = .err .MissingValue :=
  ⟨(c8_first_delimiter_split.2.1 58 [99, 58, 120, 58, 121] [99]
      [120, 58, 121]).mpr ⟨by decide, by decide⟩,
   (c8_first_delimiter_split.2.2.2.1 [102, 111, 111] part0).mpr (by decide),
   (c8_first_delimiter_split.2.2.2.2.1 [99, 58, 120] part0).mpr (by decide)⟩

/-- C9: `part_by_name` succeeds exactly on `"common"` and `"system"`,
returning the corresponding collection selector; every other string fails
with UnknownPartition, and in the write and delete loops that rejection
happens with no insertion or removal performed for the reference. -/
theorem c9_partition_resolution_exact :
    part_by_name commonName = .ok .common ∧
    part_by_name systemName = .ok .system ∧
    (∀ s, s ≠ commonName → s ≠ systemName →
      part_by_name s = .err .UnknownPartition) ∧
    (∀ tok key vt pt nm p2, splitOnce 61 tok = some (key, vt) →
      splitOnce 58 key = some (pt, nm) → pt ≠ commonName → pt ≠ systemName →
      stepW tok p2 = .err .UnknownPartition) ∧
    (∀ tok pt nm p2, splitOnce 58 tok = some (pt, nm) → pt ≠ commonName →
      pt ≠ systemName → stepD tok p2 = .err .UnknownPartition) :=
  ⟨rfl, rfl, part_by_name_other,
   fun tok key vt pt nm p2 h1 h2 h3 h4 => stepW_unknown tok key vt pt nm p2 h1 h2 h3 h4,
   fun tok pt nm p2 h1 h3 h4 => stepD_unknown tok pt nm p2 h1 h3 h4⟩

/-- C9 witness: the partition string `"bogus"` is rejected with
UnknownPartition directly, in a write token `"bogus:x=1"`, and in a delete
token `"bogus:x"`. -/
theorem c9_partition_resolution_exact_witness :
    part_by_name [98, 111, 103, 117, 115] = .err .UnknownPartition ∧
    stepW [98, 111, 103, 117, 115, 58, 120, 61, 49] part0 =
      .err .UnknownPartition ∧
    stepD [98, 111, 103, 117, 115, 58, 120] part0 = .err .UnknownPartition :=
  ⟨c9_partition_resolution_exact.2.2.1 [98, 111, 103, 117, 115]
      (by decide) (by decide),
   c9_partition_resolution_exact.2.2.2.1 [98, 111, 103, 117, 115, 58, 120, 61, 49]
      [98, 111, 103, 117, 115, 58, 120] [49] [98, 111, 103, 117, 115] [120] part0
      (by decide) (by decide) (by decide) (by decide),
   c9_partition_resolution_exact.2.2.2.2 [98, 111, 103, 117, 115, 58, 120]
      [98, 111, 103, 117, 115] [120] part0 (by decide) (by decide) (by decide)⟩

/-- C10, counterexample: `"%a%"` has a `%` at the last position, yet
`read_var` returns InvalidHex (the first escape group `a%` is rejected
before the trailing `%` is reached) — it does not panic. -/
theorem c10_trailing_percent_no_panic :
    read_var [37, 97, 37] = .err .InvalidHex ∧
    read_var [37, 97, 37] ≠ .panic := by
  decide

/-- C10, amended: `read_var` panics exactly when the scan reaches a `%`
followed by fewer than two bytes — the input splits as a cleanly decodable
prefix, then `%`, then at most one byte; when an earlier malformed escape
group intervenes the function returns InvalidHex instead. -/
theorem c10_panic_iff_truncated_escape_reached (v : List Nat) :
    read_var v = .panic ↔ panicShape v := by
  induction v using read_var.induct with
  | case1 =>
    rw [read_var]
    constructor
    · intro h
      exact Res.noConfusion h
    · rintro ⟨p, s, bs, h, -, -⟩
      exact absurd h (by simp)
  | case2 h1 h2 rest2 b hx ih =>
    rw [read_var_esc, hx, panicShape_esc_some h1 h2 b rest2 hx, mapCons_panic_iff]
    exact ih
  | case3 h1 h2 rest2 hx =>
    rw [read_var_esc, hx]
    constructor
    · intro h
      exact Res.noConfusion h
    · intro h
      exact absurd h (panicShape_esc_none h1 h2 rest2 hx)
  | case4 rest hno =>
    have hlen : rest.length ≤ 1 := by
      cases rest with
      | nil => simp
      | cons x rest3 =>
        cases rest3 with
        | nil => simp
        | cons y rest4 => exact (hno x y rest4 rfl).elim
    have hp : read_var (37 :: rest) = .panic := by
      cases rest with
      | nil => rfl
      | cons x rest3 =>
        cases rest3 with
        | nil => rfl
        | cons y rest4 => exact (hno x y rest4 rfl).elim
    rw [hp]
    exact Iff.intro (fun _ => panicShape_short rest hlen) (fun _ => rfl)
  | case5 c rest hc ih =>
    rw [read_var_cons_ne c rest hc, panicShape_cons_ne c rest hc, mapCons_panic_iff]
    exact ih

/-- C10 witness: `"h%"` panics — its prefix `"h"` decodes cleanly and the
`%` is followed by no byte at all. -/
theorem c10_panic_iff_truncated_escape_reached_witness :
    read_var [104, 37] = .panic :=
  (c10_panic_iff_truncated_escape_reached [104, 37]).mpr
    ⟨[104], [], [104], rfl, by decide, by decide⟩

end AsahiNvram
